import Mathlib

/-!
Verification development for the study-app core (src/app.js).

The JavaScript source is shallowly embedded: machine numbers become Nat or
Int (all quantities involved stay well inside the exact-integer range of JS
floats, so no overflow modelling is needed), the JS object used as an
accumulator map becomes an association list in first-insertion order (JS
objects enumerate non-index string keys in insertion order, and the item ids
of this app are non-index strings such as D1W1), and Array.prototype.sort,
which ECMAScript requires to be stable, becomes the stable List.insertionSort
with the ordering induced by the comparator.
-/

/-- A study event, as appended by logStudy in src/app.js:
{ itemId, itemType, outcome, ts }. Timestamps are Int milliseconds. -/
structure StudyEvent where
  itemId : String
  itemType : String
  outcome : String
  ts : Int
deriving DecidableEq, Repr

/-- The severity table of _rankEvents: score = \x7b wrong: 3, correct: 2, view: 1 \x7d,
with score[e.outcome] || 0 giving 0 for any other outcome string. -/
def score (outcome : String) : Nat :=
  if outcome = "wrong" then 3
  else if outcome = "correct" then 2
  else if outcome = "view" then 1
  else 0

/-- One entry of the accumulator map of _rankEvents. -/
structure RankedItem where
  itemId : String
  best : Nat
  lastTs : Int
deriving DecidableEq, Repr

/-- One iteration of the events.forEach loop of _rankEvents: look the item up
in the map (default \x7b best: 0, lastTs: 0 \x7d) and store the pointwise max.
The map is an association list in insertion order of first occurrence,
matching JS object key order for the string keys this app uses. -/
def updateMap (m : List RankedItem) (e : StudyEvent) : List RankedItem :=
  if m.any (fun r => r.itemId = e.itemId) then
    m.map (fun r =>
      if r.itemId = e.itemId then
        { itemId := r.itemId
          best := max r.best (score e.outcome)
          lastTs := max r.lastTs e.ts }
      else r)
  else
    m ++ [{ itemId := e.itemId
            best := max 0 (score e.outcome)
            lastTs := max 0 e.ts }]

/-- The accumulator map built by the forEach loop of _rankEvents. -/
def buildMap (events : List StudyEvent) : List RankedItem :=
  events.foldl updateMap []

/-- The comparator (a, b) => b.best - a.best || a.lastTs - b.lastTs of
_rankEvents, rendered as the boolean ordering that a stable sort with that
comparator realises: a stays before b iff the comparator is nonpositive. -/
def rankLe (a b : RankedItem) : Bool :=
  if a.best = b.best then decide (a.lastTs ≤ b.lastTs) else decide (b.best < a.best)

/-- The comparator as a Prop-valued relation, for the sort. -/
def rankRel : RankedItem → RankedItem → Prop :=
  fun a b => rankLe a b = true

instance : DecidableRel rankRel :=
  fun a b => (inferInstance : Decidable (rankLe a b = true))

/-- _rankEvents from src/app.js: fold the events into the accumulator map,
stable-sort its values by the comparator, return the item ids.
ECMAScript requires Array.prototype.sort to be stable, and with a consistent
comparator the stable sorted permutation is unique, so any stable sort
models it; insertionSort is stable. -/
def _rankEvents (events : List StudyEvent) : List String :=
  (List.insertionSort rankRel (buildMap events)).map (fun r => r.itemId)

/-- Item ids of the events in order of first occurrence: the key order of
the JS accumulator object. -/
def firstIds (events : List StudyEvent) : List String :=
  events.foldl (fun acc e => if e.itemId ∈ acc then acc else acc ++ [e.itemId]) []

/-- Specification-side accumulator value: the max severity weight over the
events of one item (0 when the item has no events). -/
def bestOf (events : List StudyEvent) (id : String) : Nat :=
  (events.filter (fun e => e.itemId = id)).foldl (fun b e => max b (score e.outcome)) 0

/-- Specification-side accumulator value: the max timestamp over the events
of one item (0 when the item has no events, matching the lastTs: 0 default). -/
def lastTsOf (events : List StudyEvent) (id : String) : Int :=
  (events.filter (fun e => e.itemId = id)).foldl (fun b e => max b e.ts) 0

instance : IsTotal RankedItem rankRel :=
  ⟨fun a b => by
    have hiff : ∀ x y : RankedItem, rankLe x y = true ↔
        (y.best < x.best ∨ (x.best = y.best ∧ x.lastTs ≤ y.lastTs)) := by
      intro x y
      simp only [rankLe]
      split_ifs with h <;> simp only [decide_eq_true_eq] <;> omega
    unfold rankRel
    rw [hiff, hiff]
    omega⟩

instance : IsTrans RankedItem rankRel :=
  ⟨fun a b c hab hbc => by
    have hiff : ∀ x y : RankedItem, rankLe x y = true ↔
        (y.best < x.best ∨ (x.best = y.best ∧ x.lastTs ≤ y.lastTs)) := by
      intro x y
      simp only [rankLe]
      split_ifs with h <;> simp only [decide_eq_true_eq] <;> omega
    unfold rankRel at hab hbc ⊢
    rw [hiff] at hab hbc ⊢
    omega⟩

/-- Milliseconds per calendar day. -/
def msPerDay : Int := 86400000

/-- Fixed UTC offset of Asia/Seoul in milliseconds (KST is UTC+9 with no
daylight saving time). Intl.DateTimeFormat with timeZone Asia/Seoul is a
host API; it is modelled as the proleptic Gregorian calendar at this fixed
offset. -/
def kstOffsetMs : Int := 32400000

/-- The KST calendar day number (days since 1970-01-01) of a timestamp. -/
def kstDay (ms : Int) : Int := (ms + kstOffsetMs) / msPerDay

/-- Proleptic Gregorian (year, month, day) from a day number counted from
1970-01-01, by the standard civil-from-days computation; division on Int is
floor division for these positive divisors. -/
def civilFromDays (z0 : Int) : Int × Int × Int :=
  let z := z0 + 719468
  let era := z / 146097
  let doe := z - era * 146097
  let yoe := (doe - doe / 1460 + doe / 36524 - doe / 146096) / 365
  let y := yoe + era * 400
  let doy := doe - (365 * yoe + yoe / 4 - yoe / 100)
  let mp := (5 * doy + 2) / 153
  let d := doy - (153 * mp + 2) / 5 + 1
  let m := if mp < 10 then mp + 3 else mp - 9
  (y + (if m ≤ 2 then 1 else 0), m, d)

/-- Two-digit zero padding for the 2-digit month and day fields of the
en-CA date format. -/
def pad2 (n : Int) : String := if n < 10 then "0" ++ toString n else toString n

/-- The en-CA YYYY-MM-DD rendering of a day number. -/
def kstDayString (day : Int) : String :=
  let ymd := civilFromDays day
  toString ymd.1 ++ "-" ++ pad2 ymd.2.1 ++ "-" ++ pad2 ymd.2.2

/-- _kstYMD from src/app.js: the Asia/Seoul YYYY-MM-DD string of a
timestamp. -/
def _kstYMD (ms : Int) : String := kstDayString (kstDay ms)

/-- _daysAgo from src/app.js, with the ambient Date.now() made an explicit
parameter: new Date(Date.now() - n * 24 * 60 * 60 * 1000). -/
def _daysAgo (now : Int) (n : Nat) : Int := now - (n : Int) * 86400000

/-- ECMAScript string less-than: lexicographic comparison of UTF-16 code
units; the date strings compared here are ASCII, where code units coincide
with code points. -/
def jsStrLt : List Char → List Char → Bool
  | [], [] => false
  | [], _ :: _ => true
  | _ :: _, [] => false
  | a :: as, b :: bs =>
    if a.val < b.val then true
    else if b.val < a.val then false
    else jsStrLt as bs

/-- ECMAScript s <= t on strings, defined as the negation of t < s. -/
def jsStrLe (s t : String) : Bool := ! jsStrLt t.data s.data

/-- The filter of getYesterdayReviewSet: keep the log events whose KST date
string equals the KST date string of now minus one day. -/
def yesterdayEvents (log : List StudyEvent) (now : Int) : List StudyEvent :=
  let target := _kstYMD (_daysAgo now 1)
  log.filter (fun e => _kstYMD e.ts = target)

/-- getYesterdayReviewSet from src/app.js over a decoded log and an
explicit now: filter to yesterday, rank, truncate to max. -/
def getYesterdayReviewSet (log : List StudyEvent) (now : Int) (max : Nat := 30) :
    List String :=
  (_rankEvents (yesterdayEvents log now)).take max

/-- The filter of getLast7DaysReviewSet: keep the log events whose KST date
string lies, in JS string order, between the date strings of now minus 7
days and now minus 1 day, both inclusive. -/
def last7DaysEvents (log : List StudyEvent) (now : Int) : List StudyEvent :=
  let start := _kstYMD (_daysAgo now 7)
  let stop := _kstYMD (_daysAgo now 1)
  log.filter (fun e =>
    jsStrLe start (_kstYMD e.ts) && jsStrLe (_kstYMD e.ts) stop)

/-- getLast7DaysReviewSet from src/app.js over a decoded log and an
explicit now. -/
def getLast7DaysReviewSet (log : List StudyEvent) (now : Int) (max : Nat := 30) :
    List String :=
  (_rankEvents (last7DaysEvents log now)).take max

/-- A word entry of one day of daily_plan.json. -/
structure WordEntry where
  jp : String
  ko : String
deriving DecidableEq, Repr

/-- One day record of daily_plan.json: pattern, its translation, and the
word list. -/
structure DayPlan where
  pattern : String
  pattern_ko : String
  words : List WordEntry
deriving DecidableEq, Repr

/-- A quiz item as built by generateQuizData. -/
structure QuizItem where
  id : String
  type : String
  jp : String
  ko : String
deriving DecidableEq, Repr

/-- The inner day.words.forEach of generateQuizData: synthesize the id
D(di+1)W(wi+1) and emit the word item when requested, wi counting word
positions from 0. -/
def wordItems (itemIds : List String) (di : Nat) : List WordEntry → Nat → List QuizItem
  | [], _ => []
  | w :: ws, wi =>
    (if ("D" ++ toString (di + 1) ++ "W" ++ toString (wi + 1)) ∈ itemIds then
      [⟨"D" ++ toString (di + 1) ++ "W" ++ toString (wi + 1), "word", w.jp, w.ko⟩]
    else []) ++ wordItems itemIds di ws (wi + 1)

/-- One day of generateQuizData: the requested word items in order, then
the pattern item D(di+1)P when requested. -/
def dayItems (itemIds : List String) (day : DayPlan) (di : Nat) : List QuizItem :=
  wordItems itemIds di day.words 0 ++
    (if ("D" ++ toString (di + 1) ++ "P") ∈ itemIds then
      [⟨"D" ++ toString (di + 1) ++ "P", "pattern", day.pattern, day.pattern_ko⟩]
    else [])

/-- The outer plan.forEach of generateQuizData, di counting days from 0. -/
def quizDataFrom (itemIds : List String) : List DayPlan → Nat → List QuizItem
  | [], _ => []
  | d :: ds, di => dayItems itemIds d di ++ quizDataFrom itemIds ds (di + 1)

/-- generateQuizData from src/app.js. -/
def generateQuizData (itemIds : List String) (plan : List DayPlan) : List QuizItem :=
  quizDataFrom itemIds plan 0

/-- Every item the catalog can synthesize, in catalog order, from one word
list. -/
def catalogWordItems (di : Nat) : List WordEntry → Nat → List QuizItem
  | [], _ => []
  | w :: ws, wi =>
    ⟨"D" ++ toString (di + 1) ++ "W" ++ toString (wi + 1), "word", w.jp, w.ko⟩ ::
      catalogWordItems di ws (wi + 1)

/-- Every item one day can synthesize, in catalog order. -/
def catalogDayItems (day : DayPlan) (di : Nat) : List QuizItem :=
  catalogWordItems di day.words 0 ++
    [⟨"D" ++ toString (di + 1) ++ "P", "pattern", day.pattern, day.pattern_ko⟩]

/-- Every item the catalog can synthesize, over the days. -/
def catalogItemsFrom : List DayPlan → Nat → List QuizItem
  | [], _ => []
  | d :: ds, di => catalogDayItems d di ++ catalogItemsFrom ds (di + 1)

/-- The full catalog in catalog order. -/
def catalogItems (plan : List DayPlan) : List QuizItem :=
  catalogItemsFrom plan 0

/-- A two-day demonstration catalog. -/
def demoPlan : List DayPlan :=
  [⟨"pat1", "patko1", [⟨"jp11", "ko11"⟩]⟩,
   ⟨"pat2", "patko2", [⟨"jp21", "ko21"⟩]⟩]

/-- logStudy from src/app.js at the event-log level: the decoded log gets
one event pushed, built from the given fields and ts = Date.now(), and is
stored back. The raw persistence layer (JSON.parse of the stored string) is
modelled separately by getStudyLogRaw. -/
def logStudy (log : List StudyEvent) (itemId itemType outcome : String) (now : Int) :
    List StudyEvent :=
  log ++ [⟨itemId, itemType, outcome, now⟩]

/-- The btn.onclick handler of a quiz question in buildQuizPage: call
logStudy with outcome decided by opt === answer, where answer is item.ko,
then advance the cursor and re-render. -/
def selectChoice (log : List StudyEvent) (current : Nat) (item : QuizItem)
    (opt : String) (now : Int) : List StudyEvent × Nat :=
  (logStudy log item.id item.type (if opt = item.ko then "correct" else "wrong") now,
   current + 1)

/-- The first rendered state of a quiz page. -/
inductive QuizPage where
  | noItems
  | complete
  | presenting (item : QuizItem)
deriving DecidableEq, Repr

/-- buildQuizPage from src/app.js up to its first rendered state: an empty
requested id list shows the no-items message and returns before loading the
plan; otherwise the resolved items drive showNext with cursor 0, which
shows the completion message when the cursor is already past the end
(current >= items.length) and presents the first item otherwise. A failed
catalog fetch reaches this function as plan = [] via the loadDailyPlan
catch handler. -/
def buildQuizPage (itemIds : List String) (plan : List DayPlan) : QuizPage :=
  if itemIds.length = 0 then .noItems
  else
    match generateQuizData itemIds plan with
    | [] => .complete
    | it :: _ => .presenting it

/-- Every target-language word string of the catalog, with multiplicity:
the candidates the distractor loop can sample. -/
def wordPool : List DayPlan → List String
  | [] => []
  | d :: ds => d.words.map (fun w => w.ko) ++ wordPool ds

/-- One random pick of the distractor loop of buildQuizPage:
plan[Math.floor(Math.random() * plan.length)] and then a word of that day.
The randomness is modelled by an arbitrary index pair, reduced modulo the
lengths so that every pick denotes a valid index, exactly the values
Math.floor(Math.random() * len) can produce; none arises only for an empty
plan or an empty word list, where the source would fault on undefined. -/
def sampleKo (plan : List DayPlan) (p : Nat × Nat) : Option String :=
  match plan.get? (p.1 % plan.length) with
  | none => none
  | some d => (d.words.get? (p.2 % d.words.length)).map (fun w => w.ko)

/-- One iteration of while (options.length < 4): sample a word and push its
translation unless already present. -/
def optionsStep (plan : List DayPlan) (options : List String) (p : Nat × Nat) :
    List String :=
  match sampleKo plan p with
  | none => options
  | some cand => if cand ∈ options then options else options ++ [cand]

/-- The option list after n loop iterations, starting from [answer], driven
by the pick sequence; iterations after the list reaches 4 entries leave it
unchanged, as the while condition does. -/
def optionsAfter (plan : List DayPlan) (answer : String) (picks : Nat → Nat × Nat) :
    Nat → List String
  | 0 => [answer]
  | n + 1 =>
    let cur := optionsAfter plan answer picks n
    if cur.length < 4 then optionsStep plan cur (picks n) else cur

/-- A single-day catalog with three distinct word translations. -/
def tinyPlan : List DayPlan :=
  [⟨"p", "pk", [⟨"j1", "k1"⟩, ⟨"j2", "k2"⟩, ⟨"j3", "k3"⟩]⟩]

/-- A single-day catalog with four distinct word translations. -/
def poolPlan : List DayPlan :=
  [⟨"p", "pk", [⟨"j1", "k1"⟩, ⟨"j2", "k2"⟩, ⟨"j3", "k3"⟩, ⟨"j4", "k4"⟩]⟩]

/-- The browser localStorage, modelled as a key-value association list:
getItem is lookup (null when absent), setItem replaces the value of an
existing key or appends a new one. -/
abbrev Store := List (String × String)

def Store.get (s : Store) (k : String) : Option String :=
  (s.find? (fun kv => kv.1 = k)).map (fun kv => kv.2)

def Store.set (s : Store) (k v : String) : Store :=
  if s.any (fun kv => kv.1 = k) then
    s.map (fun kv => if kv.1 = k then (k, v) else kv)
  else s ++ [(k, v)]

/-- A parsed JSON value. JSON.parse is a host API; this models the value
grammar of ECMA-404. Numbers are kept as their raw token text, which is all
this development needs. -/
inductive JVal where
  | null
  | bool (b : Bool)
  | num (raw : String)
  | str (s : String)
  | arr (elems : List JVal)
  | obj (fields : List (String × JVal))

/-- JSON insignificant whitespace. -/
def skipWs : List Char → List Char
  | [] => []
  | c :: cs =>
    if c = ' ' ∨ c = '\t' ∨ c = '\n' ∨ c = '\r' then skipWs cs else c :: cs

def hexVal (c : Char) : Option Nat :=
  if '0' ≤ c ∧ c ≤ '9' then some (c.toNat - 48)
  else if 'a' ≤ c ∧ c ≤ 'f' then some (c.toNat - 87)
  else if 'A' ≤ c ∧ c ≤ 'F' then some (c.toNat - 55)
  else none

/-- The body of a JSON string after the opening quote: acc holds the
decoded characters in reverse. -/
def parseJStrAux : List Char → List Char → Option (String × List Char)
  | _, [] => none
  | acc, c :: cs =>
    if c = '"' then some (String.mk acc.reverse, cs)
    else if c = '\\' then
      match cs with
      | [] => none
      | e :: cs2 =>
        if e = '"' then parseJStrAux ('"' :: acc) cs2
        else if e = '\\' then parseJStrAux ('\\' :: acc) cs2
        else if e = '/' then parseJStrAux ('/' :: acc) cs2
        else if e = 'b' then parseJStrAux (Char.ofNat 8 :: acc) cs2
        else if e = 'f' then parseJStrAux (Char.ofNat 12 :: acc) cs2
        else if e = 'n' then parseJStrAux ('\n' :: acc) cs2
        else if e = 'r' then parseJStrAux (Char.ofNat 13 :: acc) cs2
        else if e = 't' then parseJStrAux ('\t' :: acc) cs2
        else if e = 'u' then
          match cs2 with
          | a :: b :: c2 :: d :: cs3 =>
            match hexVal a, hexVal b, hexVal c2, hexVal d with
            | some ha, some hb, some hc, some hd =>
              parseJStrAux
                (Char.ofNat (((ha * 16 + hb) * 16 + hc) * 16 + hd) :: acc) cs3
            | _, _, _, _ => none
          | _ => none
        else none
    else parseJStrAux (c :: acc) cs

def isJDigit (c : Char) : Bool := '0' ≤ c && c ≤ '9'

/-- One or more digits. -/
def parseDigits1 (cs : List Char) : Option (List Char × List Char) :=
  let (d, r) := cs.span isJDigit
  if d.isEmpty then none else some (d, r)

/-- An optional fraction part. -/
def parseFracPart (cs : List Char) : Option (List Char × List Char) :=
  match cs with
  | '.' :: r => (parseDigits1 r).map (fun dr => ('.' :: dr.1, dr.2))
  | _ => some ([], cs)

/-- An optional exponent part. -/
def parseExpPart (cs : List Char) : Option (List Char × List Char) :=
  match cs with
  | c :: r =>
    if c = 'e' ∨ c = 'E' then
      match r with
      | s :: r2 =>
        if s = '+' ∨ s = '-' then
          (parseDigits1 r2).map (fun dr => (c :: s :: dr.1, dr.2))
        else (parseDigits1 r).map (fun dr => (c :: dr.1, dr.2))
      | [] => none
    else some ([], cs)
  | [] => some ([], cs)

/-- A JSON number token, kept as raw text. The leading-zero restriction of
ECMA-404 is not enforced; no stored value of this app carries a number in a
form where that difference matters. -/
def parseJNum (cs : List Char) : Option (String × List Char) := do
  let (sign, cs1) :=
    match cs with
    | '-' :: r => ((['-'] : List Char), r)
    | _ => (([] : List Char), cs)
  let (intds, cs2) ← parseDigits1 cs1
  let (fr, cs3) ← parseFracPart cs2
  let (ex, cs4) ← parseExpPart cs3
  some (String.mk (sign ++ intds ++ fr ++ ex), cs4)

mutual

/-- A JSON value; the fuel bounds recursion depth and is sized so that it
never runs out on an input the grammar accepts. -/
def parseJVal : Nat → List Char → Option (JVal × List Char)
  | 0, _ => none
  | fuel + 1, cs =>
    match skipWs cs with
    | 'n' :: 'u' :: 'l' :: 'l' :: r => some (.null, r)
    | 't' :: 'r' :: 'u' :: 'e' :: r => some (.bool true, r)
    | 'f' :: 'a' :: 'l' :: 's' :: 'e' :: r => some (.bool false, r)
    | '"' :: r => (parseJStrAux [] r).map (fun sr => (.str sr.1, sr.2))
    | '[' :: r =>
      (match skipWs r with
       | ']' :: r2 => some (.arr [], r2)
       | _ => (parseJItems fuel r).map (fun er => (.arr er.1, er.2)))
    | '{' :: r =>
      (match skipWs r with
       | '}' :: r2 => some (.obj [], r2)
       | _ => (parseJFields fuel r).map (fun fr => (.obj fr.1, fr.2)))
    | c :: r =>
      if c = '-' ∨ isJDigit c then
        (parseJNum (c :: r)).map (fun nr => (.num nr.1, nr.2))
      else none
    | [] => none

/-- Comma-separated array elements up to the closing bracket. -/
def parseJItems : Nat → List Char → Option (List JVal × List Char)
  | 0, _ => none
  | fuel + 1, cs => do
    let (v, r) ← parseJVal fuel cs
    match skipWs r with
    | ',' :: r2 => do
      let (vs, r3) ← parseJItems fuel r2
      some (v :: vs, r3)
    | ']' :: r2 => some ([v], r2)
    | _ => none

/-- Comma-separated string-keyed members up to the closing brace. -/
def parseJFields : Nat → List Char → Option (List (String × JVal) × List Char)
  | 0, _ => none
  | fuel + 1, cs =>
    match skipWs cs with
    | '"' :: r => do
      let (k, r2) ← parseJStrAux [] r
      match skipWs r2 with
      | ':' :: r3 => do
        let (v, r4) ← parseJVal fuel r3
        match skipWs r4 with
        | ',' :: r5 => do
          let (fs, r6) ← parseJFields fuel r5
          some ((k, v) :: fs, r6)
        | '}' :: r5 => some ([(k, v)], r5)
        | _ => none
      | _ => none
    | _ => none

end

/-- JSON.parse: parse one value, allow trailing whitespace only; none
models the thrown SyntaxError. -/
def jsonParse (s : String) : Option JVal :=
  match parseJVal (2 * s.length + 2) s.data with
  | some (v, rest) => if skipWs rest = [] then some v else none
  | none => none

/-- The studyLog read shared by logStudy and both review-set selectors:
JSON.parse(localStorage.getItem(studyLog) || JSON array default). Only a
missing key or the empty string are replaced by the default; any other
stored text reaches JSON.parse as is. -/
def getStudyLogRaw (store : Store) : Option JVal :=
  jsonParse
    (match store.get "studyLog" with
     | none => "[]"
     | some s => if s = "" then "[]" else s)

/-- JSON.stringify escaping for one character. The ids this app stores are
plain ASCII alphanumerics, where no escaping applies; control characters
other than the named escapes cannot occur in synthesized ids. -/
def jsonEscChar (c : Char) : String :=
  if c = '"' then "\\\""
  else if c = '\\' then "\\\\"
  else if c = '\n' then "\\n"
  else if c = Char.ofNat 13 then "\\r"
  else if c = '\t' then "\\t"
  else if c = Char.ofNat 8 then "\\b"
  else if c = Char.ofNat 12 then "\\f"
  else String.singleton c

/-- JSON.stringify of a string. -/
def jsonEncodeString (s : String) : String :=
  "\"" ++ String.join (s.data.map jsonEscChar) ++ "\""

/-- JSON.stringify of an array of strings. -/
def jsonEncodeStringList (l : List String) : String :=
  "[" ++ String.intercalate "," (l.map jsonEncodeString) ++ "]"

/-- The outcome of startQuiz: the store afterwards, whether the no-items
alert fired, and whether navigation to quiz.html happened. -/
structure StartQuizResult where
  store : Store
  alerted : Bool
  navigated : Bool
deriving DecidableEq, Repr

/-- startQuiz from src/app.js with localStorage explicit. The guard
!itemIds || !itemIds.length alerts and returns for a null or empty list;
otherwise the id list is stringified under the quizItems key and the page
navigates to quiz.html. -/
def startQuiz (store : Store) (itemIds : Option (List String)) : StartQuizResult :=
  match itemIds with
  | none => ⟨store, true, false⟩
  | some ids =>
    if ids.length = 0 then ⟨store, true, false⟩
    else ⟨store.set "quizItems" (jsonEncodeStringList ids), false, true⟩

/-- The boolean comparator ordering, spelled out as a proposition. -/
theorem rankLe_iff (a b : RankedItem) :
    rankLe a b = true ↔ (b.best < a.best ∨ (a.best = b.best ∧ a.lastTs ≤ b.lastTs)) := by
  simp only [rankLe]
  split_ifs with h <;> simp only [decide_eq_true_eq] <;> omega

theorem buildMap_append (l : List StudyEvent) (e : StudyEvent) :
    buildMap (l ++ [e]) = updateMap (buildMap l) e := by
  simp [buildMap, List.foldl_append]

theorem firstIds_append (l : List StudyEvent) (e : StudyEvent) :
    firstIds (l ++ [e]) =
      if e.itemId ∈ firstIds l then firstIds l else firstIds l ++ [e.itemId] := by
  simp [firstIds, List.foldl_append]

theorem bestOf_append (l : List StudyEvent) (e : StudyEvent) (id : String) :
    bestOf (l ++ [e]) id =
      if e.itemId = id then max (bestOf l id) (score e.outcome) else bestOf l id := by
  by_cases h : e.itemId = id <;>
    simp [bestOf, List.filter_append, h, List.foldl_append]

theorem lastTsOf_append (l : List StudyEvent) (e : StudyEvent) (id : String) :
    lastTsOf (l ++ [e]) id =
      if e.itemId = id then max (lastTsOf l id) e.ts else lastTsOf l id := by
  by_cases h : e.itemId = id <;>
    simp [lastTsOf, List.filter_append, h, List.foldl_append]

theorem mem_firstIds (l : List StudyEvent) :
    ∀ a, a ∈ firstIds l ↔ a ∈ l.map (fun e => e.itemId) := by
  induction l using List.reverseRecOn with
  | nil => simp [firstIds]
  | append_singleton l e ih =>
    intro a
    rw [firstIds_append]
    by_cases h : e.itemId ∈ firstIds l
    · rw [if_pos h]
      have h2 : e.itemId ∈ l.map (fun e => e.itemId) := (ih _).mp h
      simp only [List.map_append, List.map_cons, List.map_nil, List.mem_append,
        List.mem_singleton, ih]
      constructor
      · exact Or.inl
      · rintro (h3 | rfl)
        · exact h3
        · exact h2
    · rw [if_neg h]
      simp only [List.map_append, List.map_cons, List.map_nil, List.mem_append,
        List.mem_singleton, ih]

theorem nodup_firstIds (l : List StudyEvent) : (firstIds l).Nodup := by
  induction l using List.reverseRecOn with
  | nil => simp [firstIds]
  | append_singleton l e ih =>
    rw [firstIds_append]
    by_cases h : e.itemId ∈ firstIds l
    · rw [if_pos h]; exact ih
    · rw [if_neg h]; simp [List.nodup_append, ih, h]

theorem bestOf_of_not_mem (l : List StudyEvent) (id : String)
    (h : id ∉ l.map (fun e => e.itemId)) : bestOf l id = 0 := by
  unfold bestOf
  rw [List.filter_eq_nil_iff.mpr]
  · rfl
  · intro e he hid
    exact h (List.mem_map.mpr ⟨e, he, by simpa using hid⟩)

theorem lastTsOf_of_not_mem (l : List StudyEvent) (id : String)
    (h : id ∉ l.map (fun e => e.itemId)) : lastTsOf l id = 0 := by
  unfold lastTsOf
  rw [List.filter_eq_nil_iff.mpr]
  · rfl
  · intro e he hid
    exact h (List.mem_map.mpr ⟨e, he, by simpa using hid⟩)

/-- The accumulator map of _rankEvents is: one entry per distinct item (in
order of first occurrence), carrying the max severity and max timestamp of
the events of that item. -/
theorem buildMap_eq (l : List StudyEvent) :
    buildMap l = (firstIds l).map
      (fun id => { itemId := id, best := bestOf l id, lastTs := lastTsOf l id }) := by
  induction l using List.reverseRecOn with
  | nil => simp [buildMap, firstIds]
  | append_singleton l e ih =>
    rw [buildMap_append, ih, updateMap, firstIds_append]
    have hany : ((firstIds l).map
        (fun id => RankedItem.mk id (bestOf l id) (lastTsOf l id))).any
          (fun r => r.itemId = e.itemId) = true ↔ e.itemId ∈ firstIds l := by
      simp only [List.any_eq_true, List.mem_map, decide_eq_true_eq]
      constructor
      · rintro ⟨x, ⟨i, hi, rfl⟩, hx⟩
        exact (show i = e.itemId from hx) ▸ hi
      · intro hx
        exact ⟨_, ⟨e.itemId, hx, rfl⟩, rfl⟩
    by_cases h : e.itemId ∈ firstIds l
    · rw [if_pos (hany.mpr h), if_pos h, List.map_map]
      apply List.map_congr_left
      intro id hid
      simp only [Function.comp]
      by_cases hie : id = e.itemId
      · subst hie
        simp [bestOf_append, lastTsOf_append]
      · have hie2 : ¬ e.itemId = id := fun hx => hie hx.symm
        simp [hie, hie2, bestOf_append, lastTsOf_append]
    · rw [if_neg (fun hx => h (hany.mp hx)), if_neg h, List.map_append]
      congr 1
      · apply List.map_congr_left
        intro id hid
        have hie2 : ¬ e.itemId = id := fun hx => h (hx ▸ hid)
        simp [hie2, bestOf_append, lastTsOf_append]
      · have h0 : bestOf l e.itemId = 0 :=
          bestOf_of_not_mem l e.itemId (fun hx => h ((mem_firstIds l _).mpr hx))
        have h1 : lastTsOf l e.itemId = 0 :=
          lastTsOf_of_not_mem l e.itemId (fun hx => h ((mem_firstIds l _).mpr hx))
        simp [bestOf_append, lastTsOf_append, h0, h1]

theorem buildMap_ids (l : List StudyEvent) :
    (buildMap l).map (fun r => r.itemId) = firstIds l := by
  rw [buildMap_eq, List.map_map]
  exact List.map_id _

theorem bestOf_perm {l₁ l₂ : List StudyEvent} (h : l₁.Perm l₂) (id : String) :
    bestOf l₁ id = bestOf l₂ id := by
  unfold bestOf
  exact @List.Perm.foldl_eq _ _ _ _ _
    ⟨fun b a₁ a₂ => by
      rw [max_assoc, max_comm (score a₁.outcome), ← max_assoc]⟩
    (h.filter _) 0

theorem lastTsOf_perm {l₁ l₂ : List StudyEvent} (h : l₁.Perm l₂) (id : String) :
    lastTsOf l₁ id = lastTsOf l₂ id := by
  unfold lastTsOf
  exact @List.Perm.foldl_eq _ _ _ _ _
    ⟨fun b a₁ a₂ => by
      rw [max_assoc, max_comm a₁.ts, ← max_assoc]⟩
    (h.filter _) 0

theorem firstIds_perm {l₁ l₂ : List StudyEvent} (h : l₁.Perm l₂) :
    (firstIds l₁).Perm (firstIds l₂) :=
  (List.perm_ext_iff_of_nodup (nodup_firstIds _) (nodup_firstIds _)).mpr
    (fun a => by rw [mem_firstIds, mem_firstIds]; exact (h.map _).mem_iff)

theorem buildMap_perm {l₁ l₂ : List StudyEvent} (h : l₁.Perm l₂) :
    (buildMap l₁).Perm (buildMap l₂) := by
  rw [buildMap_eq, buildMap_eq]
  have hfun : (fun id => RankedItem.mk id (bestOf l₁ id) (lastTsOf l₁ id)) =
      (fun id => RankedItem.mk id (bestOf l₂ id) (lastTsOf l₂ id)) :=
    funext fun id => by rw [bestOf_perm h id, lastTsOf_perm h id]
  rw [hfun]
  exact (firstIds_perm h).map _

/-- Two sorted lists that are permutations of each other are equal, given
antisymmetry of the ordering on the elements actually present. -/
theorem eq_of_perm_sorted_anti {α : Type} {r : α → α → Prop} :
    ∀ {l₁ l₂ : List α}, l₁.Perm l₂ → l₁.Sorted r → l₂.Sorted r →
      (∀ a ∈ l₁, ∀ b ∈ l₁, r a b → r b a → a = b) → l₁ = l₂ := by
  intro l₁
  induction l₁ with
  | nil =>
    intro l₂ hp _ _ _
    exact (hp.symm.eq_nil).symm
  | cons a t₁ ih =>
    intro l₂ hp hs₁ hs₂ hanti
    cases l₂ with
    | nil => exact absurd hp.eq_nil (List.cons_ne_nil _ _)
    | cons b t₂ =>
      have hab : a = b := by
        by_cases h : a = b
        · exact h
        · have ha2 : a ∈ t₂ :=
            (List.mem_cons.mp (hp.mem_iff.mp (List.mem_cons_self a t₁))).resolve_left h
          have hb1 : b ∈ t₁ :=
            (List.mem_cons.mp (hp.mem_iff.mpr (List.mem_cons_self b t₂))).resolve_left
              (fun hba => h hba.symm)
          exact hanti a (List.mem_cons_self _ _) b (List.mem_cons_of_mem _ hb1)
            ((List.sorted_cons.mp hs₁).1 b hb1) ((List.sorted_cons.mp hs₂).1 a ha2)
      subst hab
      have ht := ih hp.cons_inv (List.sorted_cons.mp hs₁).2 (List.sorted_cons.mp hs₂).2
        (fun x hx y hy => hanti x (List.mem_cons_of_mem _ hx) y (List.mem_cons_of_mem _ hy))
      rw [ht]

theorem mem_rankEvents (events : List StudyEvent) (id : String) :
    id ∈ _rankEvents events ↔ id ∈ events.map (fun e => e.itemId) := by
  unfold _rankEvents
  rw [((List.perm_insertionSort rankRel (buildMap events)).map (fun r => r.itemId)).mem_iff,
    buildMap_ids, mem_firstIds]

theorem nodup_rankEvents (events : List StudyEvent) : (_rankEvents events).Nodup := by
  unfold _rankEvents
  exact (((List.perm_insertionSort rankRel (buildMap events)).map
    (fun r => r.itemId)).nodup_iff).mpr (by rw [buildMap_ids]; exact nodup_firstIds _)

theorem rank_entries (events : List StudyEvent) :
    ∀ r ∈ List.insertionSort rankRel (buildMap events),
      r.best = bestOf events r.itemId ∧ r.lastTs = lastTsOf events r.itemId := by
  intro r hr
  have hm : r ∈ buildMap events := (List.perm_insertionSort _ _).subset hr
  rw [buildMap_eq] at hm
  obtain ⟨i, hi, rfl⟩ := List.mem_map.mp hm
  exact ⟨rfl, rfl⟩

theorem rank_sorted (events : List StudyEvent) :
    (List.insertionSort rankRel (buildMap events)).Sorted
      (fun a b => b.best < a.best ∨ (a.best = b.best ∧ a.lastTs ≤ b.lastTs)) :=
  (List.sorted_insertionSort rankRel (buildMap events)).imp
    (fun h => (rankLe_iff _ _).mp h)

/-- C1: the claim as stated is false. The two lists below are permutations
of the same event multiset, yet _rankEvents returns different id sequences:
both items end with best = 3 and lastTs = 5, the comparator reports a tie,
and the stable sort falls back to the insertion order of the accumulator
map, which depends on the input order. -/
theorem rank_not_order_independent :
    ([⟨"itemA", "word", "wrong", 5⟩, ⟨"itemB", "word", "wrong", 5⟩] :
        List StudyEvent).Perm
      [⟨"itemB", "word", "wrong", 5⟩, ⟨"itemA", "word", "wrong", 5⟩]
    ∧ _rankEvents [⟨"itemA", "word", "wrong", 5⟩, ⟨"itemB", "word", "wrong", 5⟩] ≠
      _rankEvents [⟨"itemB", "word", "wrong", 5⟩, ⟨"itemA", "word", "wrong", 5⟩] := by
  constructor
  · decide
  · decide

/-- C1 (amended): for any permutation of the same event multiset,
_rankEvents produces an identical output sequence, provided no two distinct
item ids end with identical accumulators (equal best and equal lastTs); the
output then depends only on the multiset of events. -/
theorem rank_order_independent (l₁ l₂ : List StudyEvent) (hp : l₁.Perm l₂)
    (hnotie : ∀ i ∈ l₁.map (fun e => e.itemId), ∀ j ∈ l₁.map (fun e => e.itemId),
      bestOf l₁ i = bestOf l₁ j → lastTsOf l₁ i = lastTsOf l₁ j → i = j) :
    _rankEvents l₁ = _rankEvents l₂ := by
  unfold _rankEvents
  congr 1
  apply eq_of_perm_sorted_anti (r := rankRel)
  · exact (List.perm_insertionSort _ _).trans
      ((buildMap_perm hp).trans (List.perm_insertionSort _ _).symm)
  · exact List.sorted_insertionSort _ _
  · exact List.sorted_insertionSort _ _
  · intro x hx y hy hxy hyx
    have hx' : x ∈ buildMap l₁ := (List.perm_insertionSort _ _).subset hx
    have hy' : y ∈ buildMap l₁ := (List.perm_insertionSort _ _).subset hy
    rw [buildMap_eq] at hx' hy'
    obtain ⟨i, hi, rfl⟩ := List.mem_map.mp hx'
    obtain ⟨j, hj, rfl⟩ := List.mem_map.mp hy'
    unfold rankRel at hxy hyx
    rw [rankLe_iff] at hxy hyx
    dsimp at hxy hyx
    have hij : i = j :=
      hnotie i ((mem_firstIds l₁ i).mp hi) j ((mem_firstIds l₁ j).mp hj)
        (by omega) (by omega)
    rw [hij]

/-- C1 witness: a concrete permuted pair with distinct accumulators, where
the amended theorem applies and the outputs agree. -/
theorem rank_order_independent_witness :
    ([⟨"itemA", "word", "wrong", 10⟩, ⟨"itemB", "word", "wrong", 5⟩] :
        List StudyEvent).Perm
      [⟨"itemB", "word", "wrong", 5⟩, ⟨"itemA", "word", "wrong", 10⟩]
    ∧ _rankEvents [⟨"itemA", "word", "wrong", 10⟩, ⟨"itemB", "word", "wrong", 5⟩] =
      _rankEvents [⟨"itemB", "word", "wrong", 5⟩, ⟨"itemA", "word", "wrong", 10⟩] :=
  ⟨by decide, rank_order_independent _ _ (by decide) (by decide)⟩

theorem rank_accumulator_and_sort_spec :
    (∀ events : List StudyEvent,
        (∀ r ∈ List.insertionSort rankRel (buildMap events),
            r.best = bestOf events r.itemId ∧ r.lastTs = lastTsOf events r.itemId)
      ∧ (List.insertionSort rankRel (buildMap events)).Sorted
          (fun a b => b.best < a.best ∨ (a.best = b.best ∧ a.lastTs ≤ b.lastTs))
      ∧ _rankEvents events =
          (List.insertionSort rankRel (buildMap events)).map (fun r => r.itemId)
      ∧ (∀ id, id ∈ _rankEvents events ↔ id ∈ events.map (fun e => e.itemId))
      ∧ (_rankEvents events).Nodup)
    ∧ _rankEvents [⟨"itemA", "word", "correct", 0⟩, ⟨"itemB", "word", "wrong", 0⟩,
        ⟨"itemC", "word", "view", 0⟩] = ["itemB", "itemA", "itemC"]
    ∧ _rankEvents [⟨"itemA", "word", "wrong", 10⟩, ⟨"itemB", "word", "wrong", 5⟩] =
        ["itemB", "itemA"] :=
  ⟨fun events => ⟨rank_entries events, rank_sorted events, rfl,
      mem_rankEvents events, nodup_rankEvents events⟩,
   by decide, by decide⟩

/-- C2 witness: the accumulator part of the theorem, instantiated at a
concrete sorted entry of a concrete event list. -/
theorem rank_accumulator_and_sort_spec_witness :
    (⟨"itemB", 3, 5⟩ : RankedItem) ∈ List.insertionSort rankRel
      (buildMap [⟨"itemA", "word", "wrong", 10⟩, ⟨"itemB", "word", "wrong", 5⟩])
    ∧ ((⟨"itemB", 3, 5⟩ : RankedItem).best =
        bestOf [⟨"itemA", "word", "wrong", 10⟩, ⟨"itemB", "word", "wrong", 5⟩] "itemB"
      ∧ (⟨"itemB", 3, 5⟩ : RankedItem).lastTs =
        lastTsOf [⟨"itemA", "word", "wrong", 10⟩, ⟨"itemB", "word", "wrong", 5⟩] "itemB") :=
  ⟨by decide, (rank_accumulator_and_sort_spec.1 _).1 _ (by decide)⟩

/-- C9: _rankEvents on the empty log is empty; outcome strings other than
wrong, correct and view get severity weight 0; every event still creates or
updates an accumulator entry, so its item id appears in the output; and on
a single unknown-outcome event the accumulator entry has best = 0 and the
item is emitted rather than dropped. -/
theorem rank_empty_and_unknown_outcomes :
    _rankEvents [] = []
    ∧ (∀ outcome : String,
        outcome ≠ "wrong" → outcome ≠ "correct" → outcome ≠ "view" → score outcome = 0)
    ∧ (∀ (events : List StudyEvent) (e : StudyEvent),
        e ∈ events → e.itemId ∈ _rankEvents events)
    ∧ buildMap [⟨"itemZ", "word", "skipped", 7⟩] = [⟨"itemZ", 0, 7⟩]
    ∧ _rankEvents [⟨"itemZ", "word", "skipped", 7⟩] = ["itemZ"] := by
  refine ⟨by decide, ?_, ?_, by decide, by decide⟩
  · intro o h1 h2 h3
    simp [score, h1, h2, h3]
  · intro events e he
    exact (mem_rankEvents events e.itemId).mpr (List.mem_map.mpr ⟨e, he, rfl⟩)

/-- C9 witness: a concrete event with an unrecognised outcome string is a
member of its log, and its id shows up in the ranked output. -/
theorem rank_empty_and_unknown_outcomes_witness :
    (⟨"itemQ", "word", "guess", 1⟩ : StudyEvent) ∈
      ([⟨"itemP", "word", "view", 2⟩, ⟨"itemQ", "word", "guess", 1⟩] : List StudyEvent)
    ∧ "itemQ" ∈ _rankEvents [⟨"itemP", "word", "view", 2⟩, ⟨"itemQ", "word", "guess", 1⟩] :=
  ⟨by decide, rank_empty_and_unknown_outcomes.2.2.1
    [⟨"itemP", "word", "view", 2⟩, ⟨"itemQ", "word", "guess", 1⟩]
    ⟨"itemQ", "word", "guess", 1⟩ (by decide)⟩

/-- Timestamps of one KST calendar day are exactly one day-number interval:
the day number is constant across any time of that day. -/
theorem kstDay_of_range (k now : Int) (h1 : k * msPerDay - kstOffsetMs ≤ now)
    (h2 : now < (k + 1) * msPerDay - kstOffsetMs) : kstDay now = k := by
  have hr1 : (0 : Int) ≤ now + kstOffsetMs - k * msPerDay := by
    unfold msPerDay kstOffsetMs at *
    omega
  have hr2 : now + kstOffsetMs - k * msPerDay < msPerDay := by
    unfold msPerDay kstOffsetMs at *
    omega
  have hx : now + kstOffsetMs = (now + kstOffsetMs - k * msPerDay) + k * msPerDay := by
    ring
  unfold kstDay
  rw [hx, Int.add_mul_ediv_right _ _ (by unfold msPerDay; omega),
    Int.ediv_eq_zero_of_lt hr1 hr2]
  ring

/-- Subtracting n days moves the KST day number back by n: KST is a fixed
offset, so no daylight-saving shift can interfere. -/
theorem kstDay_daysAgo (now : Int) (n : Nat) :
    kstDay (_daysAgo now n) = kstDay now - n := by
  unfold kstDay _daysAgo msPerDay kstOffsetMs
  have hx : now - (n : Int) * 86400000 + 32400000 =
      (now + 32400000) + (-(n : Int)) * 86400000 := by ring
  rw [hx, Int.add_mul_ediv_right _ _ (by omega)]
  ring

/-- C3: with an injectable now, yesterdayEvents keeps exactly the events
whose KST date is the day before the KST date of now, and last7DaysEvents
keeps exactly the events whose KST date lies in the inclusive window
[today-7, today-1]. Day number 20098 is 2025-01-10, 20099 is 2025-01-11,
20100 is 2025-01-12, 20103 is 2025-01-15; a day-number hypothesis such as
kstDay now = 20099 covers every time of day, by the interval component. -/
theorem review_window_spec :
    kstDayString 20098 = "2025-01-10"
    ∧ kstDayString 20099 = "2025-01-11"
    ∧ kstDayString 20100 = "2025-01-12"
    ∧ (∀ k now : Int, k * msPerDay - kstOffsetMs ≤ now →
        now < (k + 1) * msPerDay - kstOffsetMs → kstDay now = k)
    ∧ (∀ (log : List StudyEvent) (now : Int), kstDay now = 20099 →
        yesterdayEvents log now = log.filter (fun e => _kstYMD e.ts = "2025-01-10"))
    ∧ (∀ (log : List StudyEvent) (now : Int) (e : StudyEvent), kstDay now = 20100 →
        _kstYMD e.ts = "2025-01-10" → e ∉ yesterdayEvents log now)
    ∧ (∀ (log : List StudyEvent) (now : Int), kstDay now = 20103 →
        last7DaysEvents log now = log.filter (fun e =>
          jsStrLe "2025-01-08" (_kstYMD e.ts) && jsStrLe (_kstYMD e.ts) "2025-01-14"))
    ∧ (∀ (log : List StudyEvent) (now : Int) (e : StudyEvent),
        kstDay now = 20103 → e ∈ log →
          ((kstDay e.ts = 20096 ∨ kstDay e.ts = 20102) → e ∈ last7DaysEvents log now)
          ∧ ((kstDay e.ts = 20095 ∨ kstDay e.ts = 20103) → e ∉ last7DaysEvents log now)) := by
  refine ⟨by decide, by decide, by decide, kstDay_of_range, ?_, ?_, ?_, ?_⟩
  · intro log now hnow
    have ht : _kstYMD (_daysAgo now 1) = "2025-01-10" := by
      unfold _kstYMD
      rw [kstDay_daysAgo, hnow]
      decide
    simp only [yesterdayEvents, ht]
  · intro log now e hnow hts hmem
    have ht : _kstYMD (_daysAgo now 1) = "2025-01-11" := by
      unfold _kstYMD
      rw [kstDay_daysAgo, hnow]
      decide
    simp only [yesterdayEvents, ht] at hmem
    have h2 := (List.mem_filter.mp hmem).2
    rw [decide_eq_true_eq, hts] at h2
    exact absurd h2 (by decide)
  · intro log now hnow
    have hs : _kstYMD (_daysAgo now 7) = "2025-01-08" := by
      unfold _kstYMD
      rw [kstDay_daysAgo, hnow]
      decide
    have hz : _kstYMD (_daysAgo now 1) = "2025-01-14" := by
      unfold _kstYMD
      rw [kstDay_daysAgo, hnow]
      decide
    simp only [last7DaysEvents, hs, hz]
  · intro log now e hnow hmem
    have hs : _kstYMD (_daysAgo now 7) = "2025-01-08" := by
      unfold _kstYMD
      rw [kstDay_daysAgo, hnow]
      decide
    have hz : _kstYMD (_daysAgo now 1) = "2025-01-14" := by
      unfold _kstYMD
      rw [kstDay_daysAgo, hnow]
      decide
    constructor
    · intro hts
      have hday : _kstYMD e.ts = "2025-01-08" ∨ _kstYMD e.ts = "2025-01-14" := by
        rcases hts with h | h
        · left; unfold _kstYMD; rw [h]; decide
        · right; unfold _kstYMD; rw [h]; decide
      simp only [last7DaysEvents, hs, hz]
      refine List.mem_filter.mpr ⟨hmem, ?_⟩
      rcases hday with h | h <;> rw [h] <;> decide
    · intro hts hmem2
      have hday : _kstYMD e.ts = "2025-01-07" ∨ _kstYMD e.ts = "2025-01-15" := by
        rcases hts with h | h
        · left; unfold _kstYMD; rw [h]; decide
        · right; unfold _kstYMD; rw [h]; decide
      simp only [last7DaysEvents, hs, hz] at hmem2
      have h2 := (List.mem_filter.mp hmem2).2
      rcases hday with h | h <;> rw [h] at h2 <;> exact absurd h2 (by decide)

/-- C3 witness: a concrete now during 2025-01-11 KST, its day-interval
bounds discharged, and the yesterday filter applied to a concrete log. -/
theorem review_window_spec_witness :
    (20099 * msPerDay - kstOffsetMs ≤ 1736550000000
      ∧ (1736550000000 : Int) < (20099 + 1) * msPerDay - kstOffsetMs
      ∧ kstDay 1736550000000 = 20099)
    ∧ yesterdayEvents [⟨"itemA", "word", "view", 1736478000000⟩] 1736550000000 =
        List.filter (fun e => _kstYMD e.ts = "2025-01-10")
          [⟨"itemA", "word", "view", 1736478000000⟩] :=
  ⟨⟨by decide, by decide,
    review_window_spec.2.2.2.1 20099 1736550000000 (by decide) (by decide)⟩,
   review_window_spec.2.2.2.2.1 [⟨"itemA", "word", "view", 1736478000000⟩]
     1736550000000 (by decide)⟩

theorem wordItems_eq_filter (itemIds : List String) (di : Nat) :
    ∀ (ws : List WordEntry) (wi : Nat),
      wordItems itemIds di ws wi =
        (catalogWordItems di ws wi).filter (fun it => it.id ∈ itemIds) := by
  intro ws
  induction ws with
  | nil => intro wi; rfl
  | cons w ws ih =>
    intro wi
    simp only [wordItems, catalogWordItems, List.filter_cons]
    by_cases h : ("D" ++ toString (di + 1) ++ "W" ++ toString (wi + 1)) ∈ itemIds
    · simp [h, ih]
    · simp [h, ih]

theorem dayItems_eq_filter (itemIds : List String) (day : DayPlan) (di : Nat) :
    dayItems itemIds day di =
      (catalogDayItems day di).filter (fun it => it.id ∈ itemIds) := by
  unfold dayItems catalogDayItems
  rw [List.filter_append, wordItems_eq_filter]
  by_cases h : ("D" ++ toString (di + 1) ++ "P") ∈ itemIds
  · simp [h]
  · simp [h]

theorem quizDataFrom_eq_filter (itemIds : List String) :
    ∀ (plan : List DayPlan) (di : Nat),
      quizDataFrom itemIds plan di =
        (catalogItemsFrom plan di).filter (fun it => it.id ∈ itemIds) := by
  intro plan
  induction plan with
  | nil => intro di; rfl
  | cons d ds ih =>
    intro di
    simp only [quizDataFrom, catalogItemsFrom, List.filter_append]
    rw [dayItems_eq_filter, ih]

/-- generateQuizData is the catalog, kept in catalog order, filtered to the
requested ids. -/
theorem generateQuizData_eq_filter (itemIds : List String) (plan : List DayPlan) :
    generateQuizData itemIds plan =
      (catalogItems plan).filter (fun it => it.id ∈ itemIds) :=
  quizDataFrom_eq_filter itemIds plan 0

/-- C4: generateQuizData emits the matching QuizItems in catalog order
(days in order, words of a day in order, then the pattern item), regardless
of the order of the requested id list; ids absent from the catalog are
silently dropped. Concretely, requesting [D2W1, D1P] against a 2-day
catalog yields [the D1P item, the D2W1 item], the same as requesting
[D1P, D2W1]; and an id matching nothing yields no item and no error. -/
theorem quiz_resolution_catalog_order :
    (∀ (itemIds : List String) (plan : List DayPlan),
        generateQuizData itemIds plan =
          (catalogItems plan).filter (fun it => it.id ∈ itemIds))
    ∧ (∀ (ids₁ ids₂ : List String) (plan : List DayPlan), ids₁.Perm ids₂ →
        generateQuizData ids₁ plan = generateQuizData ids₂ plan)
    ∧ generateQuizData ["D2W1", "D1P"] demoPlan =
        [⟨"D1P", "pattern", "pat1", "patko1"⟩, ⟨"D2W1", "word", "jp21", "ko21"⟩]
    ∧ generateQuizData ["D1P", "D2W1"] demoPlan =
        [⟨"D1P", "pattern", "pat1", "patko1"⟩, ⟨"D2W1", "word", "jp21", "ko21"⟩]
    ∧ generateQuizData ["ZZZ", "D9W9"] demoPlan = [] := by
  refine ⟨generateQuizData_eq_filter, ?_, by decide, by decide, by decide⟩
  intro ids₁ ids₂ plan hp
  rw [generateQuizData_eq_filter, generateQuizData_eq_filter]
  apply List.filter_congr
  intro it _
  rw [decide_eq_decide]
  exact hp.mem_iff

/-- C4 witness: the permutation-invariance component applied to a concrete
permuted request pair. -/
theorem quiz_resolution_catalog_order_witness :
    (["D1P", "D2W1"] : List String).Perm ["D2W1", "D1P"]
    ∧ generateQuizData ["D1P", "D2W1"] demoPlan =
        generateQuizData ["D2W1", "D1P"] demoPlan :=
  ⟨by decide,
   quiz_resolution_catalog_order.2.1 ["D1P", "D2W1"] ["D2W1", "D1P"] demoPlan (by decide)⟩

/-- C5: answering a question appends exactly one StudyEvent to the log,
never zero and never more, carrying the item id and type and the current
timestamp; the outcome is correct exactly when the chosen string equals the
item target text, wrong otherwise; and the cursor advances by one. -/
theorem answer_logging_spec :
    ∀ (log : List StudyEvent) (current : Nat) (item : QuizItem) (opt : String) (now : Int),
      (selectChoice log current item opt now).1.length = log.length + 1
      ∧ (selectChoice log current item opt now).1 =
          log ++ [⟨item.id, item.type,
            if opt = item.ko then "correct" else "wrong", now⟩]
      ∧ (opt = item.ko →
          (selectChoice log current item opt now).1 =
            log ++ [⟨item.id, item.type, "correct", now⟩])
      ∧ (opt ≠ item.ko →
          (selectChoice log current item opt now).1 =
            log ++ [⟨item.id, item.type, "wrong", now⟩])
      ∧ (selectChoice log current item opt now).2 = current + 1 := by
  intro log current item opt now
  refine ⟨by simp [selectChoice, logStudy], rfl, ?_, ?_, rfl⟩
  · intro h
    simp [selectChoice, logStudy, h]
  · intro h
    simp [selectChoice, logStudy, h]

/-- C5 witness: a correct pick and a wrong pick on a concrete question. -/
theorem answer_logging_spec_witness :
    (("cat" : String) = "cat"
      ∧ (selectChoice [] 0 ⟨"D1W1", "word", "neko", "cat"⟩ "cat" 99).1 =
          [] ++ [⟨"D1W1", "word", "correct", 99⟩])
    ∧ (("dog" : String) ≠ "cat"
      ∧ (selectChoice [] 0 ⟨"D1W1", "word", "neko", "cat"⟩ "dog" 99).1 =
          [] ++ [⟨"D1W1", "word", "wrong", 99⟩]) :=
  ⟨⟨rfl, (answer_logging_spec [] 0 ⟨"D1W1", "word", "neko", "cat"⟩ "cat" 99).2.2.1 rfl⟩,
   ⟨by decide, (answer_logging_spec [] 0 ⟨"D1W1", "word", "neko", "cat"⟩ "dog" 99).2.2.2.1
      (by decide)⟩⟩

/-- C8: the claim is false as stated. With a nonempty requested id list
that resolves to zero items (here: a catalog fetch failure, plan = []), the
builder renders the quiz-complete message, not the no-items report. -/
theorem empty_quiz_counterexample :
    buildQuizPage ["D1W1"] [] = QuizPage.complete
    ∧ QuizPage.complete ≠ QuizPage.noItems := by
  constructor
  · decide
  · decide

/-- C8 (amended): whenever the resolved item sequence is empty the builder
never enters the presenting state; it reports the no-items condition
exactly when the requested id list itself is empty, and with a nonempty
request resolving to zero items (for example an empty catalog) it
immediately reports completion instead. -/
theorem empty_quiz_spec :
    (∀ (plan : List DayPlan), buildQuizPage [] plan = QuizPage.noItems)
    ∧ (∀ (itemIds : List String) (plan : List DayPlan),
        generateQuizData itemIds plan = [] →
          ∀ item, buildQuizPage itemIds plan ≠ QuizPage.presenting item)
    ∧ (∀ (itemIds : List String) (plan : List DayPlan),
        itemIds ≠ [] → generateQuizData itemIds plan = [] →
          buildQuizPage itemIds plan = QuizPage.complete) := by
  refine ⟨fun plan => rfl, ?_, ?_⟩
  · intro itemIds plan hres item
    unfold buildQuizPage
    by_cases h : itemIds.length = 0
    · rw [if_pos h]
      intro hx
      cases hx
    · rw [if_neg h, hres]
      intro hx
      cases hx
  · intro itemIds plan hne hres
    unfold buildQuizPage
    rw [if_neg (fun h0 => hne (List.eq_nil_of_length_eq_zero h0)), hres]

/-- C8 witness: the amended behaviour at concrete inputs. -/
theorem empty_quiz_spec_witness :
    (generateQuizData ["D1W1"] [] = []
      ∧ buildQuizPage ["D1W1"] [] ≠ QuizPage.presenting ⟨"D1W1", "word", "jp11", "ko11"⟩)
    ∧ ((["D1W1"] : List String) ≠ []
      ∧ buildQuizPage ["D1W1"] [] = QuizPage.complete) :=
  ⟨⟨by decide, empty_quiz_spec.2.1 ["D1W1"] [] (by decide) ⟨"D1W1", "word", "jp11", "ko11"⟩⟩,
   ⟨by decide, empty_quiz_spec.2.2 ["D1W1"] [] (by decide) (by decide)⟩⟩

theorem optionsAfter_succ (plan : List DayPlan) (answer : String)
    (picks : Nat → Nat × Nat) (n : Nat) :
    optionsAfter plan answer picks (n + 1) =
      if (optionsAfter plan answer picks n).length < 4 then
        optionsStep plan (optionsAfter plan answer picks n) (picks n)
      else optionsAfter plan answer picks n := rfl

theorem mem_wordPool (s : String) :
    ∀ plan : List DayPlan,
      s ∈ wordPool plan ↔ ∃ d ∈ plan, ∃ w ∈ d.words, w.ko = s := by
  intro plan
  induction plan with
  | nil => simp [wordPool]
  | cons d ds ih =>
    simp only [wordPool, List.mem_append, List.mem_map, ih, List.mem_cons]
    constructor
    · rintro (⟨w, hw, rfl⟩ | ⟨d2, hd2, hrest⟩)
      · exact ⟨d, Or.inl rfl, w, hw, rfl⟩
      · exact ⟨d2, Or.inr hd2, hrest⟩
    · rintro ⟨d2, hd2 | hd2, hrest⟩
      · subst hd2
        obtain ⟨w, hw, hko⟩ := hrest
        exact Or.inl ⟨w, hw, hko⟩
      · exact Or.inr ⟨d2, hd2, hrest⟩

theorem sampleKo_mem_wordPool {plan : List DayPlan} {p : Nat × Nat} {s : String}
    (h : sampleKo plan p = some s) : s ∈ wordPool plan := by
  unfold sampleKo at h
  cases hget : plan.get? (p.1 % plan.length) with
  | none => rw [hget] at h; cases h
  | some d =>
    rw [hget] at h
    obtain ⟨w, hw, hko⟩ := Option.map_eq_some'.mp h
    exact (mem_wordPool s plan).mpr
      ⟨d, List.get?_mem hget, w, List.get?_mem hw, hko⟩

theorem exists_pick_of_mem_wordPool {plan : List DayPlan} {s : String}
    (h : s ∈ wordPool plan) : ∃ p : Nat × Nat, sampleKo plan p = some s := by
  obtain ⟨d, hd, w, hw, hko⟩ := (mem_wordPool s plan).mp h
  obtain ⟨di, hdi, hdeq⟩ := List.getElem_of_mem hd
  obtain ⟨wi, hwi, hweq⟩ := List.getElem_of_mem hw
  refine ⟨(di, wi), ?_⟩
  unfold sampleKo
  have h1 : plan.get? (di % plan.length) = some d := by
    rw [Nat.mod_eq_of_lt hdi, List.get?_eq_get hdi]
    simpa using congrArg some hdeq
  rw [h1]
  dsimp only
  have h2 : d.words.get? (wi % d.words.length) = some w := by
    rw [Nat.mod_eq_of_lt hwi, List.get?_eq_get hwi]
    simpa using congrArg some hweq
  rw [h2]
  simp [hko]

/-- Loop invariant: the option list stays duplicate-free, keeps the answer
as a member, never exceeds 4 entries, and only ever contains the answer or
sampled word translations. -/
theorem optionsAfter_invariant (plan : List DayPlan) (answer : String)
    (picks : Nat → Nat × Nat) : ∀ n : Nat,
      (optionsAfter plan answer picks n).Nodup
      ∧ answer ∈ optionsAfter plan answer picks n
      ∧ (optionsAfter plan answer picks n).length ≤ 4
      ∧ (∀ s ∈ optionsAfter plan answer picks n, s = answer ∨ s ∈ wordPool plan) := by
  intro n
  induction n with
  | zero =>
    refine ⟨List.nodup_singleton _, List.mem_singleton_self _, by simp [optionsAfter], ?_⟩
    intro s hs
    exact Or.inl (List.mem_singleton.mp hs)
  | succ n ih =>
    obtain ⟨hnd, hmem, hlen, hsub⟩ := ih
    rw [optionsAfter_succ]
    by_cases hl : (optionsAfter plan answer picks n).length < 4
    · rw [if_pos hl]
      cases hsamp : sampleKo plan (picks n) with
      | none =>
        simp only [optionsStep, hsamp]
        exact ⟨hnd, hmem, hlen, hsub⟩
      | some cand =>
        simp only [optionsStep, hsamp]
        by_cases hc : cand ∈ optionsAfter plan answer picks n
        · rw [if_pos hc]
          exact ⟨hnd, hmem, hlen, hsub⟩
        · rw [if_neg hc]
          refine ⟨?_, List.mem_append_left _ hmem, ?_, ?_⟩
          · simp [List.nodup_append, hnd, hc]
          · rw [List.length_append]
            simp only [List.length_singleton]
            omega
          · intro s hs
            rcases List.mem_append.mp hs with h | h
            · exact hsub s h
            · right
              rw [List.mem_singleton.mp h]
              exact sampleKo_mem_wordPool hsamp
    · rw [if_neg hl]
      exact ⟨hnd, hmem, hlen, hsub⟩

/-- Removing one designated string from a duplicate-free list costs at most
one entry. -/
theorem length_le_filter_ne_add_one (a : String) :
    ∀ l : List String, l.Nodup →
      l.length ≤ (l.filter (fun s => decide (s ≠ a))).length + 1 := by
  intro l
  induction l with
  | nil => intro _; simp
  | cons x xs ih =>
    intro hnd
    obtain ⟨hxmem, hxs⟩ := List.nodup_cons.mp hnd
    by_cases hx : x = a
    · subst hx
      rw [List.filter_cons_of_neg (by simp)]
      have hall : xs.filter (fun s => decide (s ≠ x)) = xs :=
        List.filter_eq_self.mpr
          (fun b hb => decide_eq_true (fun hba => hxmem (hba ▸ hb)))
      rw [hall]
      simp
    · have hfil : List.filter (fun s => decide (s ≠ a)) (x :: xs) =
          x :: List.filter (fun s => decide (s ≠ a)) xs :=
        List.filter_cons_of_pos (decide_eq_true hx)
      rw [hfil]
      have := ih hxs
      simp only [List.length_cons]
      omega

/-- Three successful fresh samples drive the option list from [answer] to
four entries. -/
theorem optionsAfter_three (plan : List DayPlan) (answer c1 c2 c3 : String)
    (p1 p2 p3 : Nat × Nat)
    (hp1 : sampleKo plan p1 = some c1) (hp2 : sampleKo plan p2 = some c2)
    (hp3 : sampleKo plan p3 = some c3)
    (ha1 : c1 ≠ answer) (ha2 : c2 ≠ answer) (ha3 : c3 ≠ answer)
    (h12 : c2 ≠ c1) (h13 : c3 ≠ c1) (h23 : c3 ≠ c2) :
    optionsAfter plan answer
      (fun n => if n = 0 then p1 else if n = 1 then p2 else p3) 3 =
      [answer, c1, c2, c3] := by
  set pk : Nat → Nat × Nat :=
    fun n => if n = 0 then p1 else if n = 1 then p2 else p3 with hpk
  have hpk0 : pk 0 = p1 := rfl
  have hpk1 : pk 1 = p2 := rfl
  have hpk2 : pk 2 = p3 := rfl
  have e1 : optionsAfter plan answer pk 1 = [answer, c1] := by
    rw [optionsAfter_succ, show optionsAfter plan answer pk 0 = [answer] from rfl,
      if_pos (by simp), hpk0]
    simp only [optionsStep, hp1]
    rw [if_neg (by simp [ha1])]
    rfl
  have e2 : optionsAfter plan answer pk 2 = [answer, c1, c2] := by
    rw [optionsAfter_succ, e1, if_pos (by simp), hpk1]
    simp only [optionsStep, hp2]
    rw [if_neg (by simp [ha2, h12])]
    rfl
  have e3 : optionsAfter plan answer pk 3 = [answer, c1, c2, c3] := by
    rw [optionsAfter_succ, e2, if_pos (by simp), hpk2]
    simp only [optionsStep, hp3]
    rw [if_neg (by simp [ha3, h13, h23])]
    rfl
  exact e3

/-- With at least 4 distinct strings in the combined candidate pool (the
answer together with the word translations of the catalog), some pick
sequence brings the option list to exactly 4 entries. -/
theorem optionsAfter_reaches_pool (plan : List DayPlan) (answer : String)
    (h4 : 4 ≤ ((answer :: wordPool plan).dedup).length) :
    ∃ (picks : Nat → Nat × Nat) (n : Nat),
      (optionsAfter plan answer picks n).length = 4 := by
  classical
  have hdnd : (((answer :: wordPool plan)).dedup).Nodup := List.nodup_dedup _
  have hflen : 3 ≤ (((answer :: wordPool plan).dedup).filter
      (fun s => decide (s ≠ answer))).length := by
    have := length_le_filter_ne_add_one answer ((answer :: wordPool plan).dedup) hdnd
    omega
  set f := ((answer :: wordPool plan).dedup).filter (fun s => decide (s ≠ answer)) with hf
  have hfnd : f.Nodup := hdnd.filter _
  have h0 : 0 < f.length := by omega
  have h1 : 1 < f.length := by omega
  have h2 : 2 < f.length := by omega
  have hgetne : ∀ (i j : Nat) (hi : i < f.length) (hj : j < f.length), i ≠ j →
      f.get ⟨i, hi⟩ ≠ f.get ⟨j, hj⟩ := by
    intro i j hi hj hij hcontra
    exact hij (congrArg Fin.val (hfnd.get_inj_iff.mp hcontra))
  have hmem : ∀ (i : Nat) (hi : i < f.length),
      f.get ⟨i, hi⟩ ∈ wordPool plan ∧ f.get ⟨i, hi⟩ ≠ answer := by
    intro i hi
    have hin : f.get ⟨i, hi⟩ ∈
        ((answer :: wordPool plan).dedup).filter (fun s => decide (s ≠ answer)) := by
      rw [← hf]
      exact List.get_mem f i hi
    have hp : f.get ⟨i, hi⟩ ≠ answer := by
      have h2 := (List.mem_filter.mp hin).2
      simpa using h2
    have hmm : f.get ⟨i, hi⟩ ∈ answer :: wordPool plan :=
      List.mem_dedup.mp (List.mem_of_mem_filter hin)
    rcases List.mem_cons.mp hmm with h | h
    · exact absurd h hp
    · exact ⟨h, hp⟩
  obtain ⟨p1, hp1⟩ := exists_pick_of_mem_wordPool (hmem 0 h0).1
  obtain ⟨p2, hp2⟩ := exists_pick_of_mem_wordPool (hmem 1 h1).1
  obtain ⟨p3, hp3⟩ := exists_pick_of_mem_wordPool (hmem 2 h2).1
  refine ⟨fun n => if n = 0 then p1 else if n = 1 then p2 else p3, 3, ?_⟩
  rw [optionsAfter_three plan answer _ _ _ p1 p2 p3 hp1 hp2 hp3
    (hmem 0 h0).2 (hmem 1 h1).2 (hmem 2 h2).2
    (hgetne 1 0 h1 h0 (by omega)) (hgetne 2 0 h2 h0 (by omega))
    (hgetne 2 1 h2 h1 (by omega))]
  rfl

/-- With at least 4 distinct word translations in the catalog, some pick
sequence brings the option list to exactly 4 entries: the combined pool is
then at least as large. -/
theorem optionsAfter_reaches (plan : List DayPlan) (answer : String)
    (h4 : 4 ≤ (wordPool plan).dedup.length) :
    ∃ (picks : Nat → Nat × Nat) (n : Nat),
      (optionsAfter plan answer picks n).length = 4 := by
  apply optionsAfter_reaches_pool
  have hsub : (wordPool plan).dedup ⊆ (answer :: wordPool plan).dedup := by
    intro s hs
    rw [List.mem_dedup] at hs ⊢
    exact List.mem_cons_of_mem _ hs
  have := (List.subperm_of_subset (List.nodup_dedup _) hsub).length_le
  omega

/-- One loop iteration can only add the sampled candidate. -/
theorem optionsStep_subset (plan : List DayPlan) (cur : List String) (p : Nat × Nat) :
    optionsStep plan cur p ⊆ cur ++ (sampleKo plan p).toList := by
  unfold optionsStep
  cases h : sampleKo plan p with
  | none => simp
  | some cand =>
    dsimp only
    by_cases hc : cand ∈ cur
    · rw [if_pos hc]
      intro s hs
      exact List.mem_append_left _ hs
    · rw [if_neg hc]
      simp

/-- Under a constant pick sequence the option list never leaves the answer
plus the single sampled candidate. -/
theorem optionsAfter_const_subset (plan : List DayPlan) (answer : String) (p : Nat × Nat) :
    ∀ n : Nat,
      optionsAfter plan answer (fun _ => p) n ⊆ answer :: (sampleKo plan p).toList := by
  intro n
  induction n with
  | zero =>
    intro s hs
    have hs2 : s ∈ [answer] := hs
    rw [List.mem_singleton.mp hs2]
    exact List.mem_cons_self _ _
  | succ n ih =>
    rw [optionsAfter_succ]
    by_cases hl : (optionsAfter plan answer (fun _ => p) n).length < 4
    · rw [if_pos hl]
      intro s hs
      have hstep := optionsStep_subset plan (optionsAfter plan answer (fun _ => p) n) p hs
      rcases List.mem_append.mp hstep with h | h
      · exact ih h
      · exact List.mem_cons_of_mem _ h
    · rw [if_neg hl]
      exact ih

/-- A constant (adversarial) pick sequence never brings the option list to
4 entries, whatever the catalog: the while loop then runs forever. -/
theorem optionsAfter_const_lt (plan : List DayPlan) (answer : String) (p : Nat × Nat)
    (n : Nat) : (optionsAfter plan answer (fun _ => p) n).length < 4 := by
  obtain ⟨hnd, -, -, -⟩ := optionsAfter_invariant plan answer (fun _ => p) n
  have hsub := optionsAfter_const_subset plan answer p n
  have hle := (List.subperm_of_subset hnd hsub).length_le
  have hbound : (answer :: (sampleKo plan p).toList).length ≤ 2 := by
    cases sampleKo plan p <;> simp
  omega

/-- C6: the claim is false in its second half. The loop can terminate
without the claimed precondition: this catalog has only 3 distinct word
translations, yet for a pattern question whose answer differs from all of
them the loop reaches 4 distinct choices after 3 samples. -/
theorem distractor_loop_counterexample :
    (wordPool tinyPlan).dedup.length < 4
    ∧ (optionsAfter tinyPlan "pk" (fun n => (0, n)) 3).length = 4 := by
  constructor
  · decide
  · decide

/-- C6 (amended): the option list is always duplicate-free, contains the
answer and has at most 4 entries, so a terminating run yields exactly 4
pairwise-distinct choices including the answer; some sample sequence
terminates the loop if and only if the combined candidate pool (the answer
plus the distinct word translations) has at least 4 elements — in
particular under the claimed precondition of at least 4 distinct word
translations; with a smaller pool the loop runs forever for every sample
sequence; and since the unbounded while places no cap on attempts, a
constant sample sequence keeps the loop running forever on any catalog,
so sure termination fails even under the precondition. -/
theorem distractor_loop_spec :
    (∀ (plan : List DayPlan) (answer : String) (picks : Nat → Nat × Nat) (n : Nat),
        (optionsAfter plan answer picks n).Nodup
        ∧ answer ∈ optionsAfter plan answer picks n
        ∧ (optionsAfter plan answer picks n).length ≤ 4)
    ∧ (∀ (plan : List DayPlan) (answer : String),
        4 ≤ ((answer :: wordPool plan).dedup).length →
          ∃ (picks : Nat → Nat × Nat) (n : Nat),
            (optionsAfter plan answer picks n).length = 4)
    ∧ (∀ (plan : List DayPlan) (answer : String),
        4 ≤ (wordPool plan).dedup.length →
          ∃ (picks : Nat → Nat × Nat) (n : Nat),
            (optionsAfter plan answer picks n).length = 4)
    ∧ (∀ (plan : List DayPlan) (answer : String) (picks : Nat → Nat × Nat) (n : Nat),
        ((answer :: wordPool plan).dedup).length < 4 →
          (optionsAfter plan answer picks n).length < 4)
    ∧ (∀ (plan : List DayPlan) (answer : String) (p : Nat × Nat) (n : Nat),
        (optionsAfter plan answer (fun _ => p) n).length < 4) := by
  refine ⟨?_, optionsAfter_reaches_pool, optionsAfter_reaches, ?_, optionsAfter_const_lt⟩
  · intro plan answer picks n
    obtain ⟨h1, h2, h3, -⟩ := optionsAfter_invariant plan answer picks n
    exact ⟨h1, h2, h3⟩
  · intro plan answer picks n hlt
    obtain ⟨hnd, -, -, hsub⟩ := optionsAfter_invariant plan answer picks n
    have hss : optionsAfter plan answer picks n ⊆ (answer :: wordPool plan).dedup := by
      intro s hs
      rw [List.mem_dedup]
      rcases hsub s hs with h | h
      · rw [h]
        exact List.mem_cons_self _ _
      · exact List.mem_cons_of_mem _ h
    have := (List.subperm_of_subset hnd hss).length_le
    omega

/-- C6 witness: for a 4-word catalog both the word-translation precondition
and the combined-pool condition hold and the two termination components
apply; and the forward non-termination component applies to the 3-word
catalog with a word answer, whose combined pool has 3 elements. -/
theorem distractor_loop_spec_witness :
    (4 ≤ (wordPool poolPlan).dedup.length
      ∧ ∃ (picks : Nat → Nat × Nat) (n : Nat),
          (optionsAfter poolPlan "ans" picks n).length = 4)
    ∧ (4 ≤ (("ans" :: wordPool poolPlan).dedup).length
      ∧ ∃ (picks : Nat → Nat × Nat) (n : Nat),
          (optionsAfter poolPlan "ans" picks n).length = 4)
    ∧ ((("k1" :: wordPool tinyPlan).dedup).length < 4
      ∧ (optionsAfter tinyPlan "k1" (fun n => (0, n)) 9).length < 4) :=
  ⟨⟨by decide, distractor_loop_spec.2.2.1 poolPlan "ans" (by decide)⟩,
   ⟨by decide, distractor_loop_spec.2.1 poolPlan "ans" (by decide)⟩,
   ⟨by decide, distractor_loop_spec.2.2.2.1 tinyPlan "k1" (fun n => (0, n)) 9 (by decide)⟩⟩

/-- C7: the code contradicts the claim. The read shared by logStudy and
both review-set selectors substitutes the default array text only for a
missing key or the empty string (the two falsy cases of the || guard); any
other malformed stored string reaches JSON.parse and the parse throws
(modelled by none) instead of producing the empty event list, so the
operation crashes rather than treating the log as empty. -/
theorem studyLog_decode_failure :
    getStudyLogRaw [("studyLog", "\x7boops")] = none
    ∧ getStudyLogRaw [("studyLog", "not json")] = none
    ∧ getStudyLogRaw [] = some (JVal.arr [])
    ∧ getStudyLogRaw [("studyLog", "")] = some (JVal.arr [])
    ∧ (none : Option JVal) ≠ some (JVal.arr []) := by
  refine ⟨rfl, rfl, rfl, rfl, ?_⟩
  intro h
  cases h

/-- C10: calling startQuiz with an absent or empty id list leaves the store
exactly as it was — in particular the quizItems key is not written — does
not navigate, and raises only the user-visible nothing-to-review alert. -/
theorem startQuiz_empty_noop :
    ∀ (store : Store) (itemIds : Option (List String)),
      itemIds = none ∨ itemIds = some [] →
        startQuiz store itemIds = ⟨store, true, false⟩ := by
  rintro store itemIds (rfl | rfl) <;> rfl

/-- C10 witness: the empty-handoff contract at a concrete store. -/
theorem startQuiz_empty_noop_witness :
    ((none : Option (List String)) = none ∨ (none : Option (List String)) = some [])
    ∧ startQuiz [("studyLog", "[]")] none = ⟨[("studyLog", "[]")], true, false⟩
    ∧ startQuiz [("studyLog", "[]")] (some []) = ⟨[("studyLog", "[]")], true, false⟩ :=
  ⟨Or.inl rfl, startQuiz_empty_noop [("studyLog", "[]")] none (Or.inl rfl),
   startQuiz_empty_noop [("studyLog", "[]")] (some []) (Or.inr rfl)⟩
